import Mathlib

/-!
Verification of the OpenVoronoi incremental Voronoi-diagram builder
(src/voronoidiagram.hpp) against its natural-language specification.

The header is the only source file available; function bodies live in the
repository's .cpp files.  Definitions below therefore come in two kinds:

* translated directly from the header (the abs_comparison functor, the
  VertexQueue instantiation of std::priority_queue, get_far_radius and the
  two constructors), and
* modelled from the spec where the body is missing; every such definition
  carries a doc comment starting with "Modelled from the spec:".

Machine doubles (the in_circle determinant values) are modelled as rationals:
the claims under study concern only ordering and absolute value, for which
ℚ is a faithful executable stand-in.
-/

namespace OVD

/-! ### The VertexQueue: pairs, comparator, and the underlying binary heap

Translated from src/voronoidiagram.hpp lines 37-47:
typedef std::pair<HEVertex, double> VertexDetPair;
class abs_comparison { bool operator()(lhs, rhs) const
  { return fabs(lhs.second) < fabs(rhs.second); } };
typedef std::priority_queue<VertexDetPair, std::vector<VertexDetPair>,
                            abs_comparison> VertexQueue;

Vertices are modelled by natural-number ids and the double determinant by a
rational.  std::priority_queue itself is external library code; its push and
pop are modelled by the algorithms of libstdc++ (bits/stl_heap.h:
__push_heap and __adjust_heap with the bottom-up hole optimisation), which is
the implementation the repository builds against.  The heap is kept as the
underlying std::vector, a list indexed from 0 with children of node i at
2i+1 and 2i+2. -/

/-- vertex-determinant pair VertexDetPair: a vertex id paired with the value
of the in_circle determinant. -/
abbrev VertexDetPair : Type := Nat × ℚ

/-- default element used by the total indexing functions. -/
def d0 : VertexDetPair := (0, 0)

/-- the sort key used by abs_comparison: fabs of the determinant. -/
def key (x : VertexDetPair) : ℚ := |x.2|

/-- abs_comparison from the header: fabs(lhs.second) < fabs(rhs.second). -/
def abs_comparison (lhs rhs : VertexDetPair) : Bool :=
  decide (key lhs < key rhs)

/-- total read of slot i of the heap vector. -/
def getk (l : List VertexDetPair) (i : Nat) : VertexDetPair := l.getD i d0

/-- total write of slot i of the heap vector. -/
def setk (l : List VertexDetPair) (i : Nat) (x : VertexDetPair) :
    List VertexDetPair :=
  l.set i x

/-- hole-style sift-up: libstdc++ __push_heap with topIndex = 0.  The value
being inserted is held aside; parents smaller than it slide down into the
hole until the hole reaches a parent at least as large (or the root), and the
value is written there. -/
def push_heap (a : List VertexDetPair) (hole : Nat) (value : VertexDetPair) :
    List VertexDetPair :=
  if h : 0 < hole then
    if key (getk a ((hole - 1) / 2)) < key value then
      push_heap (setk a hole (getk a ((hole - 1) / 2))) ((hole - 1) / 2) value
    else setk a hole value
  else setk a hole value
termination_by hole
decreasing_by
  exact Nat.lt_of_le_of_lt (Nat.div_le_self _ 2) (Nat.sub_lt h Nat.one_pos)

/-- push of std::priority_queue: push_back then __push_heap over the whole
vector. -/
def pushQ (a : List VertexDetPair) (x : VertexDetPair) : List VertexDetPair :=
  push_heap (a ++ [x]) a.length x

/-- main loop of libstdc++ __adjust_heap: sink the hole left at the root all
the way down, at each level promoting the larger child (on equal keys the
second child, as the comparator is strict). -/
def adjust_loop (a : List VertexDetPair) (hole len : Nat) :
    List VertexDetPair × Nat :=
  if h : hole < (len - 1) / 2 then
    if key (getk a (2 * (hole + 1))) < key (getk a (2 * (hole + 1) - 1)) then
      adjust_loop (setk a hole (getk a (2 * (hole + 1) - 1)))
        (2 * (hole + 1) - 1) len
    else
      adjust_loop (setk a hole (getk a (2 * (hole + 1)))) (2 * (hole + 1)) len
  else (a, hole)
termination_by len - hole
decreasing_by
  all_goals omega

/-- libstdc++ __adjust_heap: sink the hole to the bottom (with the special
final step for an even-length heap whose last interior node has a single
child), then sift the saved value back up from the final hole. -/
def adjust_heap (a : List VertexDetPair) (len : Nat) (value : VertexDetPair) :
    List VertexDetPair :=
  let r := adjust_loop a 0 len
  if len % 2 = 0 ∧ 2 ≤ len ∧ r.2 = (len - 2) / 2 then
    push_heap (setk r.1 r.2 (getk r.1 (2 * (r.2 + 1) - 1))) (2 * (r.2 + 1) - 1)
      value
  else
    push_heap r.1 r.2 value

/-- pop of std::priority_queue: the result is the root; the last element is
saved, the vector shrinks by one, and __adjust_heap re-establishes the heap
on the remaining slots.  Popping an empty queue is undefined in C++ and is
modelled as none. -/
def popQ (a : List VertexDetPair) :
    Option (VertexDetPair × List VertexDetPair) :=
  match a with
  | [] => none
  | _ :: _ =>
    some (getk a 0, adjust_heap a.dropLast (a.length - 1)
      (getk a (a.length - 1)))

/-- push a whole list of pairs, in order. -/
def pushAll (a : List VertexDetPair) (xs : List VertexDetPair) :
    List VertexDetPair :=
  xs.foldl pushQ a

/-- ids of the pairs returned by repeatedly popping, with fuel. -/
def popSeq : Nat → List VertexDetPair → List Nat
  | 0, _ => []
  | fuel + 1, a =>
    match popQ a with
    | none => []
    | some (x, b) => x.1 :: popSeq fuel b

/-! ### Heap facts: indexing lemmas -/

theorem length_setk (a : List VertexDetPair) (i : Nat) (x : VertexDetPair) :
    (setk a i x).length = a.length :=
  List.length_set ..

theorem getk_setk_eq (a : List VertexDetPair) (i : Nat) (x : VertexDetPair)
    (h : i < a.length) : getk (setk a i x) i = x := by
  simp [getk, setk, List.getD, List.getElem?_set, h]

theorem getk_setk_ne (a : List VertexDetPair) {i j : Nat} {x : VertexDetPair}
    (h : i ≠ j) : getk (setk a i x) j = getk a j := by
  simp [getk, setk, List.getD, List.getElem?_set, h]

theorem getk_dropLast (a : List VertexDetPair) {j : Nat}
    (h : j < a.length - 1) : getk a.dropLast j = getk a j := by
  simp [getk, List.getD, List.getElem?_eq_getElem, List.length_dropLast, h,
    Nat.lt_of_lt_of_le h (Nat.sub_le _ _), List.getElem_dropLast]

theorem getk_append_lt (a : List VertexDetPair) (x : VertexDetPair) {j : Nat}
    (h : j < a.length) : getk (a ++ [x]) j = getk a j := by
  simp [getk, List.getD, List.getElem?_append_left, h]

theorem getk_append_self (a : List VertexDetPair) (x : VertexDetPair) :
    getk (a ++ [x]) a.length = x := by
  simp [getk, List.getD]

theorem mem_getk (a : List VertexDetPair) {y : VertexDetPair} (hy : y ∈ a) :
    ∃ j, j < a.length ∧ getk a j = y := by
  obtain ⟨j, hj, rfl⟩ := List.mem_iff_getElem.mp hy
  exact ⟨j, hj, by simp [getk, List.getD, List.getElem?_eq_getElem, hj]⟩

/-! ### Heap facts: the heap invariant and root maximality -/

/-- binary max-heap property for the comparator abs_comparison: no parent
compares less than its child. -/
def IsHeap (a : List VertexDetPair) : Prop :=
  ∀ j, 0 < j → j < a.length → key (getk a j) ≤ key (getk a ((j - 1) / 2))

theorem isHeap_nil : IsHeap [] := by
  intro j _ hj
  simp at hj

/-- in a heap the root key dominates every slot. -/
theorem isHeap_root_le (a : List VertexDetPair) (ha : IsHeap a) :
    ∀ j, j < a.length → key (getk a j) ≤ key (getk a 0) := by
  intro j
  induction j using Nat.strong_induction_on with
  | _ j ih =>
    intro hj
    rcases Nat.eq_zero_or_pos j with h0 | h0
    · subst h0; exact le_refl _
    · have hp : (j - 1) / 2 < j :=
        Nat.lt_of_le_of_lt (Nat.div_le_self _ 2) (Nat.sub_lt h0 Nat.one_pos)
      exact le_trans (ha j h0 hj) (ih _ hp (lt_trans hp hj))

/-! ### Heap facts: sift-up re-establishes the heap

The invariant carried through push_heap, phrased on the triple
(a, hole, value): edges not incident to the hole satisfy the heap property,
children of the hole are dominated by the incoming value, and children of
the hole are dominated by the slot above the hole. -/

set_option maxHeartbeats 1000000 in
theorem push_heap_isHeap :
    ∀ (hole : Nat) (a : List VertexDetPair) (value : VertexDetPair),
    hole < a.length →
    (∀ j, 0 < j → j < a.length → j ≠ hole → (j - 1) / 2 ≠ hole →
      key (getk a j) ≤ key (getk a ((j - 1) / 2))) →
    (∀ j, 0 < j → j < a.length → (j - 1) / 2 = hole →
      key (getk a j) ≤ key value) →
    (∀ j, 0 < j → j < a.length → (j - 1) / 2 = hole → 0 < hole →
      key (getk a j) ≤ key (getk a ((hole - 1) / 2))) →
    IsHeap (push_heap a hole value) := by
  intro hole
  induction hole using Nat.strong_induction_on with
  | _ hole ih =>
    intro a value hlen h1 h2 h3
    unfold push_heap
    split
    case isFalse hpos =>
      have hhole : hole = 0 := by omega
      subst hhole
      intro j hj hjl
      rw [length_setk] at hjl
      rw [getk_setk_ne a (by omega : (0:Nat) ≠ j)]
      by_cases hpj : (j - 1) / 2 = 0
      · rw [hpj, getk_setk_eq a 0 value (by omega)]
        exact h2 j hj hjl hpj
      · rw [getk_setk_ne a (by omega : (0:Nat) ≠ (j - 1) / 2)]
        exact h1 j hj hjl (by omega) hpj
    case isTrue hpos =>
      split
      case isFalse hge =>
        intro j hj hjl
        rw [length_setk] at hjl
        by_cases hjh : j = hole
        · subst hjh
          rw [getk_setk_eq a j value (by omega),
            getk_setk_ne a (by omega : j ≠ (j - 1) / 2)]
          exact le_of_not_lt hge
        · rw [getk_setk_ne a (Ne.symm hjh)]
          by_cases hpj : (j - 1) / 2 = hole
          · rw [hpj, getk_setk_eq a hole value (by omega)]
            exact h2 j hj hjl hpj
          · rw [getk_setk_ne a (by omega : hole ≠ (j - 1) / 2)]
            exact h1 j hj hjl hjh hpj
      case isTrue hlt =>
        have hplt : (hole - 1) / 2 < hole := by omega
        apply ih ((hole - 1) / 2) hplt
        · rw [length_setk]; omega
        · -- edges not incident to the new hole
          intro j hj hjl hjp hpjp
          rw [length_setk] at hjl
          have hjh : j ≠ hole := by omega
          rw [getk_setk_ne a (Ne.symm hjh)]
          by_cases hpj : (j - 1) / 2 = hole
          · rw [hpj, getk_setk_eq a hole _ (by omega)]
            exact h3 j hj hjl hpj hpos
          · rw [getk_setk_ne a (by omega : hole ≠ (j - 1) / 2)]
            exact h1 j hj hjl hjh hpj
        · -- children of the new hole are below the value
          intro j hj hjl hpj
          rw [length_setk] at hjl
          by_cases hjh : j = hole
          · subst hjh
            rw [getk_setk_eq a j _ (by omega)]
            exact le_of_lt hlt
          · rw [getk_setk_ne a (Ne.symm hjh)]
            exact le_trans
              (h1 j hj hjl hjh (by omega : (j - 1) / 2 ≠ hole))
              (le_of_lt (by rw [hpj]; exact hlt))
        · -- children of the new hole are below its parent slot
          intro j hj hjl hpj hp2
          rw [length_setk] at hjl
          have hppne : ((hole - 1) / 2 - 1) / 2 ≠ hole := by omega
          have hkey : key (getk a ((hole - 1) / 2)) ≤
              key (getk a (((hole - 1) / 2 - 1) / 2)) :=
            h1 ((hole - 1) / 2) hp2 (by omega) (by omega) hppne
          rw [getk_setk_ne a (by omega : hole ≠ ((hole - 1) / 2 - 1) / 2)]
          by_cases hjh : j = hole
          · subst hjh
            rw [getk_setk_eq a j _ (by omega)]
            exact hkey
          · rw [getk_setk_ne a (Ne.symm hjh)]
            exact le_trans
              (by
                have := h1 j hj hjl hjh (by omega : (j - 1) / 2 ≠ hole)
                rwa [hpj] at this)
              hkey

/-- push on the queue preserves the heap invariant. -/
theorem pushQ_isHeap (a : List VertexDetPair) (x : VertexDetPair)
    (ha : IsHeap a) : IsHeap (pushQ a x) := by
  unfold pushQ
  apply push_heap_isHeap
  · simp
  · intro j hj hjl hjh hpj
    simp only [List.length_append, List.length_singleton] at hjl
    have hjl' : j < a.length := by omega
    rw [getk_append_lt a x hjl', getk_append_lt a x (by omega)]
    exact ha j hj hjl'
  · intro j hj hjl hpj
    exfalso
    simp only [List.length_append, List.length_singleton] at hjl
    omega
  · intro j hj hjl hpj _
    exfalso
    simp only [List.length_append, List.length_singleton] at hjl
    omega

/-! ### Heap facts: the sink-and-raise pop re-establishes the heap -/

/-- heap property except at the designated hole slot. -/
def almostHeapAt (a : List VertexDetPair) (hole : Nat) : Prop :=
  ∀ j, 0 < j → j < a.length → j ≠ hole →
    key (getk a j) ≤ key (getk a ((j - 1) / 2))

/-- promoting a dominant child into the hole keeps the almost-heap property
and leaves a duplicate of the promoted value above the new hole. -/
theorem promote_step (a : List VertexDetPair) (hole sc : Nat)
    (hsh : (sc - 1) / 2 = hole) (hhs : hole < sc) (hsl : sc < a.length)
    (hA : almostHeapAt a hole)
    (hdup : 0 < hole → getk a ((hole - 1) / 2) = getk a hole)
    (hsib : ∀ j, 0 < j → j < a.length → (j - 1) / 2 = hole → j ≠ sc →
      key (getk a j) ≤ key (getk a sc)) :
    almostHeapAt (setk a hole (getk a sc)) sc ∧
    (0 < sc → getk (setk a hole (getk a sc)) ((sc - 1) / 2) =
      getk (setk a hole (getk a sc)) sc) := by
  constructor
  · intro j hj hjl hjs
    rw [length_setk] at hjl
    by_cases hjh : j = hole
    · subst hjh
      rw [getk_setk_eq a j _ (by omega),
        getk_setk_ne a (by omega : j ≠ (j - 1) / 2)]
      rw [hdup hj]
      have := hA sc (by omega) hsl (by omega)
      rwa [hsh] at this
    · rw [getk_setk_ne a (Ne.symm hjh)]
      by_cases hpj : (j - 1) / 2 = hole
      · rw [hpj, getk_setk_eq a hole _ (by omega)]
        exact hsib j hj hjl hpj hjs
      · rw [getk_setk_ne a (by omega : hole ≠ (j - 1) / 2)]
        exact hA j hj hjl hjh
  · intro _
    rw [hsh, getk_setk_eq a hole _ (by omega),
      getk_setk_ne a (by omega : hole ≠ sc)]

set_option maxHeartbeats 1600000 in
/-- full specification of the sink loop: length is preserved, the hole only
moves down, the loop exits below the last interior level, the almost-heap
property and the duplicate-above-hole property are maintained. -/
theorem adjust_loop_spec : ∀ (a : List VertexDetPair) (hole len : Nat),
    a.length = len → hole < len → almostHeapAt a hole →
    (0 < hole → getk a ((hole - 1) / 2) = getk a hole) →
    (adjust_loop a hole len).1.length = len ∧
    (adjust_loop a hole len).2 < len ∧
    hole ≤ (adjust_loop a hole len).2 ∧
    ¬ (adjust_loop a hole len).2 < (len - 1) / 2 ∧
    almostHeapAt (adjust_loop a hole len).1 (adjust_loop a hole len).2 ∧
    (0 < (adjust_loop a hole len).2 →
      getk (adjust_loop a hole len).1 (((adjust_loop a hole len).2 - 1) / 2) =
        getk (adjust_loop a hole len).1 (adjust_loop a hole len).2) := by
  intro a hole len
  induction a, hole, len using adjust_loop.induct with
  | case1 a hole len h hc ih =>
    intro hlen hhl hA hdup
    have hstep := promote_step a hole (2 * (hole + 1) - 1) (by omega) (by omega)
      (by omega) hA hdup ?_
    · rw [adjust_loop]
      simp only [h, hc, dif_pos, if_true, if_false, ite_true, ite_false]
      have hrec := ih (by rw [length_setk]; exact hlen)
        (by show 2 * (hole + 1) - 1 < len; omega) hstep.1 hstep.2
      exact ⟨hrec.1, hrec.2.1, by omega, hrec.2.2.2.1, hrec.2.2.2.2.1,
        hrec.2.2.2.2.2⟩
    · intro j hj0 hjl hpj hjs
      have hj2 : j = 2 * (hole + 1) := by omega
      subst hj2
      exact le_of_lt hc
  | case2 a hole len h hc ih =>
    intro hlen hhl hA hdup
    have hstep := promote_step a hole (2 * (hole + 1)) (by omega) (by omega)
      (by omega) hA hdup ?_
    · rw [adjust_loop]
      simp only [h, hc, dif_pos, if_true, if_false, ite_true, ite_false,
        not_false_iff]
      have hrec := ih (by rw [length_setk]; exact hlen)
        (by show 2 * (hole + 1) < len; omega) hstep.1 hstep.2
      exact ⟨hrec.1, hrec.2.1, by omega, hrec.2.2.2.1, hrec.2.2.2.2.1,
        hrec.2.2.2.2.2⟩
    · intro j hj0 hjl hpj hjs
      have hj2 : j = 2 * (hole + 1) - 1 := by omega
      subst hj2
      exact le_of_not_lt hc
  | case3 a hole len h =>
    intro hlen hhl hA hdup
    rw [adjust_loop, dif_neg h]
    exact ⟨hlen, hhl, le_refl _, h, hA, hdup⟩

set_option maxHeartbeats 1600000 in
/-- adjust_heap turns an almost-heap missing its root into a heap. -/
theorem adjust_heap_isHeap (a : List VertexDetPair) (len : Nat)
    (value : VertexDetPair) (hlen : a.length = len)
    (hA : almostHeapAt a 0) : IsHeap (adjust_heap a len value) := by
  rcases Nat.eq_zero_or_pos len with h0 | hpos
  · subst h0
    have hnil : a = [] := List.length_eq_zero.mp hlen
    subst hnil
    have hres : adjust_heap [] 0 value = [] := by
      rw [adjust_heap, adjust_loop, dif_neg (by omega : ¬ (0:Nat) < (0 - 1) / 2),
        if_neg (by omega : ¬ ((0:Nat) % 2 = 0 ∧ 2 ≤ 0 ∧ 0 = (0 - 2) / 2)),
        push_heap, dif_neg (lt_irrefl 0)]
      rfl
    rw [hres]
    exact isHeap_nil
  · obtain ⟨hs1, hs2, hs3, hs4, hA2, hdup2⟩ :=
      adjust_loop_spec a 0 len hlen hpos hA (by omega)
    rw [adjust_heap]
    split
    case isTrue hcond =>
      -- even length: the hole stopped at the single-child interior node and
      -- its left child, the last slot, is promoted before the sift-up
      obtain ⟨hc1, hc2, hc3⟩ := hcond
      have hsc : 2 * ((adjust_loop a 0 len).2 + 1) - 1 = len - 1 := by omega
      have hstep := promote_step (adjust_loop a 0 len).1
        (adjust_loop a 0 len).2 (2 * ((adjust_loop a 0 len).2 + 1) - 1)
        (by omega) (by omega) (by omega) hA2 hdup2 ?_
      · apply push_heap_isHeap
        · rw [length_setk]; omega
        · intro j hj hjl hjh hpj
          rw [length_setk] at hjl
          exact hstep.1 j hj (by rw [length_setk]; omega) (by omega)
        · intro j hj hjl hpj
          rw [length_setk] at hjl
          omega
        · intro j hj hjl hpj _
          rw [length_setk] at hjl
          omega
      · intro j hj0 hjl hpj hjs
        omega
    case isFalse hcond =>
      -- the hole is childless: sift the saved value up from it
      have hchildless : 2 * (adjust_loop a 0 len).2 + 1 ≥ len := by
        rcases Nat.mod_two_eq_zero_or_one len with he | ho
        · by_cases heq : (adjust_loop a 0 len).2 = (len - 2) / 2
          · exact absurd ⟨he, by omega, heq⟩ hcond
          · omega
        · omega
      apply push_heap_isHeap
      · omega
      · intro j hj hjl hjh hpj
        exact hA2 j hj hjl hjh
      · intro j hj hjl hpj
        omega
      · intro j hj hjl hpj _
        omega

/-! ### Heap facts: queue-level pop lemmas and reachable queue states -/

theorem popQ_eq (a : List VertexDetPair) (x : VertexDetPair)
    (b : List VertexDetPair) (h : popQ a = some (x, b)) :
    x = getk a 0 ∧
      b = adjust_heap a.dropLast (a.length - 1) (getk a (a.length - 1)) := by
  cases a with
  | nil => simp [popQ] at h
  | cons hd tl =>
    rw [popQ] at h
    injection h with h
    injection h with h1 h2
    exact ⟨h1.symm, h2.symm⟩

/-- popping preserves the heap invariant. -/
theorem popQ_isHeap (a : List VertexDetPair) (x : VertexDetPair)
    (b : List VertexDetPair) (ha : IsHeap a) (h : popQ a = some (x, b)) :
    IsHeap b := by
  rw [(popQ_eq a x b h).2]
  apply adjust_heap_isHeap
  · exact List.length_dropLast a
  · intro j hj hjl _
    rw [List.length_dropLast] at hjl
    rw [getk_dropLast a hjl, getk_dropLast a (by omega)]
    exact ha j hj (by omega)

/-- the popped pair carries a maximal key among the queued pairs. -/
theorem popQ_max (a : List VertexDetPair) (x : VertexDetPair)
    (b : List VertexDetPair) (ha : IsHeap a) (h : popQ a = some (x, b)) :
    ∀ y ∈ a, key y ≤ key x := by
  intro y hy
  obtain ⟨j, hj, rfl⟩ := mem_getk a hy
  rw [(popQ_eq a x b h).1]
  exact isHeap_root_le a ha j hj

/-- queue states reachable from the empty VertexQueue by pushes and pops. -/
inductive ReachableQ : List VertexDetPair → Prop where
  | empty : ReachableQ []
  | push (a : List VertexDetPair) (x : VertexDetPair) :
      ReachableQ a → ReachableQ (pushQ a x)
  | pop (a : List VertexDetPair) (x : VertexDetPair)
      (b : List VertexDetPair) :
      ReachableQ a → popQ a = some (x, b) → ReachableQ b

/-- every reachable queue state satisfies the heap invariant. -/
theorem reachableQ_isHeap (a : List VertexDetPair) (h : ReachableQ a) :
    IsHeap a := by
  induction h with
  | empty => exact isHeap_nil
  | push a x _ ih => exact pushQ_isHeap a x ih
  | pop a x b _ hp ih => exact popQ_isHeap a x b ih hp

/-! ### Claim C2 -/

set_option maxHeartbeats 1600000 in
/-- C2, amended part: every pop from a reachable VertexQueue state returns a
pair whose absolute determinant value is maximal among all queued pairs.
(The insertion-order tie-break asserted by the claim fails; see the
counterexample below.) -/
theorem C2_pop_returns_max_abs_det (a : List VertexDetPair)
    (ha : ReachableQ a) (x : VertexDetPair) (b : List VertexDetPair)
    (h : popQ a = some (x, b)) : ∀ y ∈ a, key y ≤ key x :=
  popQ_max a x b (reachableQ_isHeap a ha) h

set_option maxHeartbeats 2000000 in
/-- C2 witness: on the queue holding (1,3), (2,-7), (3,5) the pop returns
(2,-7), whose absolute determinant 7 dominates the queued pair (1,3). -/
theorem C2_pop_returns_max_abs_det_witness :
    key ((1:ℕ), (3:ℚ)) ≤ key ((2:ℕ), (-7:ℚ)) := by
  have h : popQ (pushQ (pushQ (pushQ [] (1, (3:ℚ))) (2, -7)) (3, 5)) =
      some ((2, -7), [(3, 5), (1, 3)]) := by
    simp +decide [pushQ, push_heap, popQ, adjust_heap, adjust_loop, setk, getk,
      key, d0]
  have hmem : ((1:ℕ), (3:ℚ)) ∈
      pushQ (pushQ (pushQ [] (1, (3:ℚ))) (2, -7)) (3, 5) := by
    simp +decide [pushQ, push_heap, setk, getk, key, d0]
  exact C2_pop_returns_max_abs_det _
    (ReachableQ.push _ _ (ReachableQ.push _ _
      (ReachableQ.push _ _ ReachableQ.empty))) _ _ h _ hmem

set_option maxHeartbeats 2000000 in
/-- C2 counterexample: four pairs of equal absolute determinant pushed in the
order 1, 2, 3, 4 are popped in the order 1, 3, 2, 4 — the queue does not
break ties by insertion order. -/
theorem C2_counterexample :
    (∀ x ∈ [((1:ℕ), (1:ℚ)), (2, 1), (3, 1), (4, 1)], key x = 1) ∧
    popSeq 4 (pushAll [] [((1:ℕ), (1:ℚ)), (2, 1), (3, 1), (4, 1)]) =
      [1, 3, 2, 4] ∧
    [1, 3, 2, 4] ≠ [1, 2, 3, 4] := by
  refine ⟨by decide, ?_, by decide⟩
  simp +decide [popSeq, popQ, pushAll, pushQ, push_heap, adjust_heap,
    adjust_loop, setk, getk, key, d0]

/-! ### Vertex classification: statuses, guards, and augment_vertex_set

The header declares augment_vertex_set, predicate_c4, predicate_c5 and
find_seed_vertex (src/voronoidiagram.hpp lines 87-93) but their bodies are
in the missing .cpp file; they are modelled from spec sections 4.5.1-4.5.2.
The graph is abstracted to vertex ids, an adjacency function, and faces
given as cyclic vertex lists. -/

/-- vertex statuses from the data model (spec section 3). -/
inductive VoronoiVertexStatus where
  | OUT | IN | NEW | UNDECIDED | OUTER | POINTSITE | ENDPOINT | SEPPOINT
deriving DecidableEq, Repr

/-- face statuses from the data model (spec section 3). -/
inductive VoronoiFaceStatus where
  | INCIDENT | NONINCIDENT
deriving DecidableEq, Repr

/-- abstract view of the half-edge graph used by the classifier: vertex ids,
neighbours, and each face as its cyclic list of boundary vertices. -/
structure VdGraph where
  verts : List Nat
  adj : Nat → List Nat
  faces : List (List Nat)

/-- decisions made during one insertion: newest first, true means IN. -/
def markv (m : List (Nat × Bool)) (v : Nat) (b : Bool) : List (Nat × Bool) :=
  (v, b) :: m

/-- a vertex counts as IN when its newest decision is IN. -/
def isIN (m : List (Nat × Bool)) (v : Nat) : Bool :=
  match m.lookup v with
  | some b => b
  | none => false

/-- a vertex is decided once it carries any decision. -/
def decided (m : List (Nat × Bool)) (v : Nat) : Bool :=
  (m.lookup v).isSome

/-- number of IN-to-not-IN boundaries around a cyclic boolean sequence. -/
def transitions (bs : List Bool) : Nat :=
  ((bs.zip (bs.rotate 1)).filter (fun p => p.1 && !p.2)).length

/-- Modelled from the spec: predicate_c4 — the IN-vertices on a single face
must form a single connected arc of that face, i.e. walking the cycle meets
at most one IN-to-not-IN boundary. -/
def predicate_c4 (m : List (Nat × Bool)) (f : List Nat) : Bool :=
  decide (transitions (f.map (isIN m)) ≤ 1)

/-- Modelled from the spec: predicate_c5 — no face may have all its vertices
IN; at least one vertex of the face must stay not-IN. -/
def predicate_c5 (m : List (Nat × Bool)) (f : List Nat) : Bool :=
  f.any (fun v => ! isIN m v)

/-- both guards on every face after tentatively marking v IN. -/
def guards_ok (faces : List (List Nat)) (m : List (Nat × Bool)) (v : Nat) :
    Bool :=
  faces.all (fun f => predicate_c4 (markv m v true) f &&
    predicate_c5 (markv m v true) f)

/-- classifier state: the decisions so far and the VertexQueue. -/
structure AugState where
  marked : List (Nat × Bool)
  queue : List VertexDetPair

/-- Modelled from the spec (4.5.2): one iteration of the classifier.  Pop the
highest-confidence pair; a vertex already decided is skipped; otherwise it is
marked IN exactly when its determinant is positive and both topological
guards survive, and OUT otherwise (demotion despite a positive sign), and its
undecided neighbours are enqueued keyed by their determinants. -/
def augment_step (g : VdGraph) (inC : Nat → ℚ) (s : AugState) : AugState :=
  match popQ s.queue with
  | none => s
  | some ((v, _), q') =>
    if decided s.marked v then { s with queue := q' }
    else
      let b := decide (0 < inC v) && guards_ok g.faces s.marked v
      let m' := markv s.marked v b
      { marked := m',
        queue := pushAll q' ((g.adj v).filterMap
          (fun u => if decided m' u then none else some (u, inC u))) }

/-- Modelled from the spec (4.5.2): run the classifier until the queue is
empty, with an explicit iteration bound. -/
def augment_loop (g : VdGraph) (inC : Nat → ℚ) :
    Nat → AugState → AugState
  | 0, s => s
  | fuel + 1, s =>
    if s.queue = [] then s
    else augment_loop g inC fuel (augment_step g inC s)

/-- Modelled from the spec (4.5.1-4.5.2): augment_vertex_set — push the seed
vertex keyed by its determinant and run the classifier; the result is the
set of decisions. -/
def augment_vertex_set (g : VdGraph) (inC : Nat → ℚ) (seed : Nat)
    (fuel : Nat) : List (Nat × Bool) :=
  (augment_loop g inC fuel
    { marked := [], queue := pushQ [] (seed, inC seed) }).marked

/-- Modelled from the spec (4.5.1): find_seed_vertex — iterate the vertices
of the seed face and keep the one with the most-positive in_circle value. -/
def find_seed_vertex (f : List Nat) (inC : Nat → ℚ) : Option Nat :=
  match f with
  | [] => none
  | v :: vs => some (vs.foldl (fun best u => if inC best < inC u then u else best) v)

/-! ### Classifier facts -/

theorem isIN_markv_false (m : List (Nat × Bool)) (v : Nat)
    (hv : decided m v = false) :
    ∀ u, isIN (markv m v false) u = isIN m u := by
  intro u
  by_cases hu : v = u
  · subst hu
    cases hl : List.lookup v m with
    | none => simp [isIN, markv, List.lookup, hl]
    | some b =>
      exfalso
      unfold decided at hv
      rw [hl] at hv
      simp at hv
  · have hb : (u == v) = false := by
      simp only [beq_eq_false_iff_ne]
      exact fun h => hu h.symm
    simp [isIN, markv, List.lookup, hb]

theorem isIN_markv_self (m : List (Nat × Bool)) (v : Nat) (b : Bool) :
    isIN (markv m v b) v = b := by
  simp [isIN, markv, List.lookup]

/-- one classifier step keeps both guards on every face. -/
theorem augment_step_guards (g : VdGraph) (inC : Nat → ℚ) (s : AugState)
    (h : ∀ f ∈ g.faces, predicate_c4 s.marked f = true ∧
      predicate_c5 s.marked f = true) :
    ∀ f ∈ g.faces, predicate_c4 (augment_step g inC s).marked f = true ∧
      predicate_c5 (augment_step g inC s).marked f = true := by
  unfold augment_step
  rcases hq : popQ s.queue with _ | ⟨⟨v, d⟩, q'⟩
  · exact h
  · rcases hd : decided s.marked v with _ | _
    · rcases hb : decide (0 < inC v) && guards_ok g.faces s.marked v with _ | _
      · -- demoted to OUT: the IN-set is unchanged
        have hcong : isIN (markv s.marked v false) = isIN s.marked :=
          funext (isIN_markv_false s.marked v hd)
        intro f hf
        simp only [hq, hd, hb, Bool.false_eq_true, if_false]
        constructor
        · have := (h f hf).1
          simpa [predicate_c4, hcong] using this
        · have := (h f hf).2
          simpa [predicate_c5, hcong] using this
      · -- marked IN: the guards were checked on exactly this marking
        have hg : guards_ok g.faces s.marked v = true :=
          (Bool.and_eq_true _ _ |>.mp hb).2
        intro f hf
        have := (List.all_eq_true.mp hg) f hf
        simp only [hq, hd, hb, Bool.false_eq_true, if_false]
        exact ⟨(Bool.and_eq_true _ _ |>.mp this).1,
          (Bool.and_eq_true _ _ |>.mp this).2⟩
    · intro f hf
      simp only [hq, hd, if_true]
      exact h f hf

/-- the classifier loop keeps both guards on every face. -/
theorem augment_loop_guards (g : VdGraph) (inC : Nat → ℚ) (fuel : Nat) :
    ∀ s : AugState,
    (∀ f ∈ g.faces, predicate_c4 s.marked f = true ∧
      predicate_c5 s.marked f = true) →
    ∀ f ∈ g.faces,
      predicate_c4 (augment_loop g inC fuel s).marked f = true ∧
      predicate_c5 (augment_loop g inC fuel s).marked f = true := by
  induction fuel with
  | zero => intro s h; exact h
  | succ fuel ih =>
    intro s h
    rw [augment_loop]
    split
    · exact h
    · exact ih _ (augment_step_guards g inC s h)

theorem transitions_all_false (bs : List Bool)
    (h : ∀ b ∈ bs, b = false) : transitions bs = 0 := by
  unfold transitions
  rw [List.filter_eq_nil_iff.mpr]
  · rfl
  · intro p hp
    have := (List.of_mem_zip hp).1
    simp [h p.1 this]

theorem isIN_nil (v : Nat) : isIN [] v = false := rfl

/-! ### Claim C1 -/

/-- C1: during augment_vertex_set, a popped undecided vertex with positive
in_circle determinant is marked IN exactly when both topological guards C4
and C5 survive the marking (and is demoted to OUT otherwise), and
consequently on every face the IN-set is a single connected arc
(predicate_c4) and some vertex is left not-IN (predicate_c5) when the
classifier finishes, for every nonempty-faced graph. -/
theorem C1_augment_guards :
    (∀ (g : VdGraph) (inC : Nat → ℚ) (s : AugState) (v : Nat) (d : ℚ)
      (q' : List VertexDetPair),
      popQ s.queue = some ((v, d), q') → decided s.marked v = false →
      (isIN (augment_step g inC s).marked v = true ↔
        (0 < inC v ∧ guards_ok g.faces s.marked v = true))) ∧
    (∀ (g : VdGraph) (inC : Nat → ℚ) (seed fuel : Nat),
      (∀ f ∈ g.faces, f ≠ []) →
      ∀ f ∈ g.faces,
        predicate_c4 (augment_vertex_set g inC seed fuel) f = true ∧
        predicate_c5 (augment_vertex_set g inC seed fuel) f = true) := by
  constructor
  · intro g inC s v d q' hq hd
    unfold augment_step
    rw [hq]
    simp only [hd, Bool.false_eq_true, if_false, isIN_markv_self,
      Bool.and_eq_true, decide_eq_true_eq]
  · intro g inC seed fuel hne
    apply augment_loop_guards
    intro f hf
    constructor
    · have hall : ∀ b ∈ f.map (isIN []), b = false := by
        intro b hb
        obtain ⟨v, _, rfl⟩ := List.mem_map.mp hb
        exact isIN_nil v
      simp [predicate_c4, transitions_all_false _ hall]
    · rcases List.exists_mem_of_ne_nil f (hne f hf) with ⟨v, hv⟩
      simp only [predicate_c5, List.any_eq_true]
      exact ⟨v, hv, by simp [isIN_nil]⟩

/-- concrete graph used by the C1 witness: two faces sharing an edge. -/
def gW : VdGraph :=
  ⟨[0, 1, 2, 3], fun _ => ([] : List Nat), [[0, 1, 2], [1, 2, 3]]⟩

/-- concrete in_circle values used by the C1 witness. -/
def inCW : Nat → ℚ := fun v => if v = 3 then -1 else 5

/-- C1 witness: a concrete two-face graph.  First conjunct at the state
whose queue holds only vertex 1 with determinant 5; second conjunct on the
graph with faces [0,1,2] and [1,2,3] after a full classifier run. -/
theorem C1_augment_guards_witness :
    (isIN (augment_step gW inCW ⟨[], [(1, 5)]⟩).marked 1 = true ↔
      (0 < inCW 1 ∧ guards_ok gW.faces [] 1 = true)) ∧
    (∀ f ∈ gW.faces,
      predicate_c4 (augment_vertex_set gW inCW 1 6) f = true ∧
      predicate_c5 (augment_vertex_set gW inCW 1 6) f = true) := by
  constructor
  · exact C1_augment_guards.1 gW inCW ⟨[], [(1, 5)]⟩ 1 5 []
      (by simp +decide [popQ, adjust_heap, adjust_loop, push_heap, setk, getk,
        key, d0])
      (by decide)
  · exact C1_augment_guards.2 gW inCW 1 6 (by decide : ∀ f ∈ gW.faces, f ≠ [])

/-! ### Claim C7 -/

theorem foldl_best_mem (inC : Nat → ℚ) :
    ∀ (vs : List Nat) (v : Nat),
    vs.foldl (fun best u => if inC best < inC u then u else best) v ∈ v :: vs := by
  intro vs
  induction vs with
  | nil => intro v; exact List.mem_singleton.mpr rfl
  | cons u vs ih =>
    intro v
    rw [List.foldl_cons]
    rcases List.mem_cons.mp (ih (if inC v < inC u then u else v)) with hh | hh
    · rw [hh]
      split
      · exact List.mem_cons_of_mem _ (List.mem_cons_self _ _)
      · exact List.mem_cons_self _ _
    · exact List.mem_cons_of_mem _ (List.mem_cons_of_mem _ hh)

theorem foldl_best_ge (inC : Nat → ℚ) :
    ∀ (vs : List Nat) (v : Nat), ∀ u ∈ v :: vs,
    inC u ≤ inC (vs.foldl (fun best u => if inC best < inC u then u else best) v) := by
  intro vs
  induction vs with
  | nil =>
    intro v u hu
    simp only [List.foldl_nil]
    rw [List.mem_singleton.mp hu]
  | cons w vs ih =>
    intro v u hu
    rw [List.foldl_cons]
    have h1 : inC v ≤ inC (if inC v < inC w then w else v) := by
      split
      · next hlt => exact le_of_lt hlt
      · exact le_refl _
    have h2 : inC w ≤ inC (if inC v < inC w then w else v) := by
      split
      · exact le_refl _
      · next hnlt => exact le_of_not_lt hnlt
    rcases List.mem_cons.mp hu with rfl | hu2
    · exact le_trans h1 (ih _ _ (List.mem_cons_self _ _))
    · rcases List.mem_cons.mp hu2 with rfl | hu3
      · exact le_trans h2 (ih _ _ (List.mem_cons_self _ _))
      · exact ih _ _ (List.mem_cons_of_mem _ hu3)

/-- C7: on a nonempty seed face, find_seed_vertex returns a vertex of the
face with the most-positive in_circle value; whenever some vertex of the
face has positive in_circle (guaranteed by the Voronoi property), so has the
returned seed vertex. -/
theorem C7_find_seed_vertex_max (f : List Nat) (inC : Nat → ℚ)
    (hne : f ≠ []) :
    ∃ v, find_seed_vertex f inC = some v ∧ v ∈ f ∧
      (∀ u ∈ f, inC u ≤ inC v) ∧ ((∃ w ∈ f, 0 < inC w) → 0 < inC v) := by
  cases f with
  | nil => exact absurd rfl hne
  | cons v0 vs =>
    refine ⟨_, rfl, foldl_best_mem inC vs v0, foldl_best_ge inC vs v0, ?_⟩
    rintro ⟨w, hw, hwpos⟩
    exact lt_of_lt_of_le hwpos (foldl_best_ge inC vs v0 w hw)

/-- C7 witness: on the face [7, 8, 9] with in_circle values -1, 2, -1 the
seed vertex is 8 with positive value 2. -/
theorem C7_find_seed_vertex_max_witness :
    ∃ v, find_seed_vertex [7, 8, 9]
        (fun u => if u = 8 then (2:ℚ) else -1) = some v ∧
      v ∈ [7, 8, 9] ∧
      (∀ u ∈ [7, 8, 9],
        (fun u => if u = 8 then (2:ℚ) else -1) u ≤
          (fun u => if u = 8 then (2:ℚ) else -1) v) ∧
      ((∃ w ∈ [7, 8, 9], 0 < (fun u => if u = 8 then (2:ℚ) else -1) w) →
        0 < (fun u => if u = 8 then (2:ℚ) else -1) v) :=
  C7_find_seed_vertex_max [7, 8, 9] (fun u => if u = 8 then (2:ℚ) else -1)
    (by decide)

/-! ### The half-edge graph: twin symmetry (invariant I1)

The HEGraph type itself (voronoidiagram_graph.hpp) is not under src; modelled
from spec sections 3 and 4.1: vertices carry a persistent status, half-edges
carry an id, the id of their twin, and a target vertex. -/

/-- a half-edge: own id, twin id, target vertex id. -/
structure HEdge where
  eid : Nat
  twin : Nat
  target : Nat
deriving DecidableEq, Repr

/-- Modelled from the spec: the half-edge graph, reduced to the data the
claims under study need — vertices with statuses, and twinned edges. -/
structure HEGraph where
  verts : List (Nat × VoronoiVertexStatus)
  edges : List HEdge
deriving DecidableEq, Repr

/-- target of the edge with the given id (0 if absent). -/
def etarget (g : HEGraph) (i : Nat) : Nat :=
  ((g.edges.find? (fun e => e.eid = i)).map HEdge.target).getD 0

/-- invariant I1 from the spec, on id-distinct edges: every edge has a twin
edge in the graph pointing back at it, with a different target. -/
def I1 (g : HEGraph) : Prop :=
  (g.edges.map HEdge.eid).Nodup ∧
  ∀ e ∈ g.edges, ∃ e2 ∈ g.edges,
    e2.eid = e.twin ∧ e2.twin = e.eid ∧ e2.target ≠ e.target

/-- Modelled from the spec (4.1): add a twinned pair of directed edges. -/
def add_edge_pair (g : HEGraph) (i1 i2 t1 t2 : Nat) : HEGraph :=
  { g with edges := ⟨i1, i2, t1⟩ :: ⟨i2, i1, t2⟩ :: g.edges }

/-- Modelled from the spec (4.1): remove a set of vertices and every edge
incident to one of them (an edge is incident to its own target and to its
twin's target). -/
def remove_vertex_set (g : HEGraph) (S : List Nat) : HEGraph :=
  { verts := g.verts.filter (fun vs => ! S.contains vs.1),
    edges := g.edges.filter
      (fun e => ! S.contains e.target && ! S.contains (etarget g e.twin)) }

theorem add_edge_pair_I1 (g : HEGraph) (i1 i2 t1 t2 : Nat)
    (h : I1 g) (hne : i1 ≠ i2) (htne : t1 ≠ t2)
    (hf1 : ∀ e ∈ g.edges, e.eid ≠ i1) (hf2 : ∀ e ∈ g.edges, e.eid ≠ i2) :
    I1 (add_edge_pair g i1 i2 t1 t2) := by
  obtain ⟨hnd, htw⟩ := h
  constructor
  · unfold add_edge_pair
    simp only [List.map_cons, List.nodup_cons, List.mem_cons, List.mem_map]
    refine ⟨?_, ?_, hnd⟩
    · rintro (he | ⟨e, he, heq⟩)
      · exact hne he
      · exact hf1 e he heq
    · rintro ⟨e, he, heq⟩
      exact hf2 e he heq
  · intro e he
    rcases List.mem_cons.mp he with rfl | he2
    · exact ⟨⟨i2, i1, t2⟩, List.mem_cons_of_mem _ (List.mem_cons_self _ _),
        rfl, rfl, fun hh => htne hh.symm⟩
    · rcases List.mem_cons.mp he2 with rfl | he3
      · exact ⟨⟨i1, i2, t1⟩, List.mem_cons_self _ _, rfl, rfl, htne⟩
      · obtain ⟨e2, he2m, h1, h2, h3⟩ := htw e he3
        exact ⟨e2, List.mem_cons_of_mem _ (List.mem_cons_of_mem _ he2m),
          h1, h2, h3⟩

/-- with id-distinct edges the target of an edge id found through etarget is
the target of that edge. -/
theorem etarget_of_mem (g : HEGraph) (hnd : (g.edges.map HEdge.eid).Nodup)
    (e : HEdge) (he : e ∈ g.edges) : etarget g e.eid = e.target := by
  unfold etarget
  rcases hf : g.edges.find? (fun e2 => e2.eid = e.eid) with _ | e2
  · exfalso
    rw [List.find?_eq_none] at hf
    exact absurd (by simp) (hf e he)
  · have he2 : e2 ∈ g.edges := List.mem_of_find?_eq_some hf
    have heq : e2.eid = e.eid := by simpa using List.find?_some hf
    have he22 : e2 = e := List.inj_on_of_nodup_map hnd he2 he heq
    subst he22
    rw [hf]
    rfl

/-- removing a vertex set keeps I1: twins are discarded together. -/
theorem remove_vertex_set_I1 (g : HEGraph) (S : List Nat) (h : I1 g) :
    I1 (remove_vertex_set g S) := by
  obtain ⟨hnd, htw⟩ := h
  constructor
  · exact List.Nodup.sublist (List.Sublist.map _ (List.filter_sublist _)) hnd
  · intro e he
    rw [remove_vertex_set, List.mem_filter] at he
    obtain ⟨hem, hkeep⟩ := he
    obtain ⟨e2, he2, h1, h2, h3⟩ := htw e hem
    have ht2 : etarget g e.twin = e2.target := by
      rw [← h1]
      exact etarget_of_mem g hnd e2 he2
    have ht1 : etarget g e2.twin = e.target := by
      rw [h2]
      exact etarget_of_mem g hnd e hem
    refine ⟨e2, ?_, h1, h2, h3⟩
    rw [remove_vertex_set, List.mem_filter]
    refine ⟨he2, ?_⟩
    simp only [Bool.and_eq_true, Bool.not_eq_true'] at hkeep ⊢
    rw [ht1, ← ht2]
    exact ⟨hkeep.2, hkeep.1⟩

/-- Modelled from the spec (4.5.4, reduced): add n twinned spoke pairs, the
i-th pair joining new vertex vid0+i to the site vertex, with fresh edge ids
eid0+2i and eid0+2i+1. -/
def add_spokes (g : HEGraph) (site : Nat) : Nat → Nat → Nat → HEGraph
  | _, _, 0 => g
  | eid0, vid0, n + 1 =>
    add_spokes (add_edge_pair g eid0 (eid0 + 1) vid0 site) site
      (eid0 + 2) (vid0 + 1) n

/-- add_spokes keeps I1, keeps the vertex list, bounds the edge ids, and
leaves lower-id edges intact. -/
theorem add_spokes_spec (site : Nat) :
    ∀ (n eid0 vid0 : Nat) (g : HEGraph),
    I1 g → (∀ e ∈ g.edges, e.eid < eid0) → (∀ e ∈ g.edges, e.twin < eid0) →
    site < vid0 →
    I1 (add_spokes g site eid0 vid0 n) ∧
    (add_spokes g site eid0 vid0 n).verts = g.verts ∧
    (∀ e ∈ (add_spokes g site eid0 vid0 n).edges, e.eid < eid0 + 2 * n) ∧
    (∀ e ∈ (add_spokes g site eid0 vid0 n).edges, e.twin < eid0 + 2 * n) := by
  intro n
  induction n with
  | zero =>
    intro eid0 vid0 g h1 hb hbt _
    exact ⟨h1, rfl, fun e he => by have := hb e he; omega,
      fun e he => by have := hbt e he; omega⟩
  | succ n ih =>
    intro eid0 vid0 g h1 hb hbt hsv
    have h1g : I1 (add_edge_pair g eid0 (eid0 + 1) vid0 site) :=
      add_edge_pair_I1 g eid0 (eid0 + 1) vid0 site h1 (by omega) (by omega)
        (fun e he => by have := hb e he; omega)
        (fun e he => by have := hb e he; omega)
    have hbg : ∀ e ∈ (add_edge_pair g eid0 (eid0 + 1) vid0 site).edges,
        e.eid < eid0 + 2 := by
      intro e he
      rcases List.mem_cons.mp he with rfl | he2
      · show eid0 < eid0 + 2
        omega
      · rcases List.mem_cons.mp he2 with rfl | he3
        · show eid0 + 1 < eid0 + 2
          omega
        · have := hb e he3; omega
    have hbtg : ∀ e ∈ (add_edge_pair g eid0 (eid0 + 1) vid0 site).edges,
        e.twin < eid0 + 2 := by
      intro e he
      rcases List.mem_cons.mp he with rfl | he2
      · show eid0 + 1 < eid0 + 2
        omega
      · rcases List.mem_cons.mp he2 with rfl | he3
        · show eid0 < eid0 + 2
          omega
        · have := hbt e he3; omega
    obtain ⟨r1, r2, r3, r4⟩ := ih (eid0 + 2) (vid0 + 1)
      (add_edge_pair g eid0 (eid0 + 1) vid0 site) h1g hbg hbtg (by omega)
    rw [show add_spokes g site eid0 vid0 (n + 1) =
      add_spokes (add_edge_pair g eid0 (eid0 + 1) vid0 site) site (eid0 + 2)
        (vid0 + 1) n from rfl]
    refine ⟨r1, by rw [r2]; rfl, ?_, ?_⟩
    · intro e he
      have := r3 e he
      omega
    · intro e he
      have := r4 e he
      omega

/-! ### The VoronoiDiagram state and the insertion pipeline

The class members are those of src/voronoidiagram.hpp lines 114-131; every
member whose maintenance is done by the missing .cpp bodies is modelled from
the spec.  Transient IN/OUT/NEW/UNDECIDED labels live in modified_vertices
(the vertices to be reset after the insertion, with their transient label);
INCIDENT face marks live in incident_faces; both are cleared by
reset_status, so vertex and face statuses outside an insertion are the
persistent ones. -/

/-- 2D site coordinates, modelled as (exact) integers: the ordering and
coincidence semantics the claims need are preserved. -/
abbrev Pt : Type := ℤ × ℤ

/-- error kinds of the insertion API (spec section 7). -/
inductive InsertError where
  | OutOfBounds | UnknownHandle | Duplicate | Crossing | Degeneracy
deriving DecidableEq, Repr

/-- the oracles the builder delegates to (spec sections 4.2-4.4 and 9): the
in_circle predicate per vertex, the vertex positioner (none = NoPosition,
surfaced as Degeneracy), the incident-face selection seeded by the
FaceGrid, and the segment crossing test. -/
structure Oracles where
  inC : Nat → Pt → ℚ
  vpos : Pt → Option (ℚ × ℚ × ℚ)
  incident : Pt → List Nat
  crosses : Int → Int → Bool

/-- Modelled from the spec: the VoronoiDiagram state.  far_radius is an
Option, none standing for the double left uninitialized by the default
constructor. -/
structure VoronoiDiagram where
  far_radius : Option ℤ
  num_bins : Nat
  gen_count : Int
  g : HEGraph
  out_verts : List Nat
  sites : List Pt
  faces : List Nat
  next_vid : Nat
  next_eid : Nat
  next_fid : Nat
  incident_faces : List Nat
  modified_vertices : List (Nat × VoronoiVertexStatus)
  v0 : List Nat
  vertexQueue : List VertexDetPair
deriving DecidableEq

/-- get_far_radius from the header: return the far_radius member (whose
initialization is not guaranteed, hence the Option). -/
def get_far_radius (vd : VoronoiDiagram) : Option ℤ := vd.far_radius

/-- effective status of a vertex: its transient label when one is recorded,
else the persistent status stored in the graph (OUT for unknown ids). -/
def vertex_status (vd : VoronoiDiagram) (v : Nat) : VoronoiVertexStatus :=
  match vd.modified_vertices.lookup v with
  | some s => s
  | none => (vd.g.verts.lookup v).getD .OUT

/-- effective status of a face: INCIDENT exactly when marked. -/
def face_status (vd : VoronoiDiagram) (f : Nat) : VoronoiFaceStatus :=
  if f ∈ vd.incident_faces then .INCIDENT else .NONINCIDENT

/-- no per-insertion scratch state remains. -/
def scratch_clear (vd : VoronoiDiagram) : Prop :=
  vd.incident_faces = [] ∧ vd.modified_vertices = [] ∧ vd.v0 = [] ∧
  vd.vertexQueue = []

/-- Modelled from the spec (4.5.5 and section 5): reset_status — drop the
INCIDENT face marks, drop every transient vertex label (NEW reverts to the
persistent OUT), and empty the per-insertion buffers. -/
def reset_status (vd : VoronoiDiagram) : VoronoiDiagram :=
  { vd with
    incident_faces := [],
    modified_vertices := [],
    v0 := [],
    vertexQueue := [] }

/-- the default constructor from the header, VoronoiDiagram() { }: no member
is initialized; the uninitialized far_radius is modelled as none. -/
def mkVoronoiDiagram : VoronoiDiagram :=
  { far_radius := none, num_bins := 0, gen_count := 0,
    g := ⟨[], []⟩, out_verts := [], sites := [], faces := [],
    next_vid := 0, next_eid := 0, next_fid := 0,
    incident_faces := [], modified_vertices := [], v0 := [],
    vertexQueue := [] }

/-- the three initial OUTER vertices. -/
def init_verts : List (Nat × VoronoiVertexStatus) :=
  [(0, .OUTER), (1, .OUTER), (2, .OUTER)]

/-- initial twinned edge pairs joining the three OUTER vertices. -/
def init_edges : List HEdge :=
  [⟨0, 1, 1⟩, ⟨1, 0, 0⟩, ⟨2, 3, 2⟩, ⟨3, 2, 1⟩, ⟨4, 5, 0⟩, ⟨5, 4, 2⟩]

/-- Modelled from the spec: the two-argument constructor stores the far
radius and bin count and runs the initializer, which creates the three
OUTER vertices with the reserved handles 0, 1 and 2, three twinned edge
pairs joining them, and the outer face 0; gen_count starts at 3. -/
def init_diagram (far : ℤ) (n_bins : Nat) : VoronoiDiagram :=
  { far_radius := some far, num_bins := n_bins, gen_count := 3,
    g := ⟨init_verts, init_edges⟩,
    out_verts := [0, 1, 2], sites := [], faces := [0],
    next_vid := 3, next_eid := 6, next_fid := 1,
    incident_faces := [], modified_vertices := [], v0 := [],
    vertexQueue := [] }

/-- Modelled from the spec (4.5.1-4.5.2, reduced to its outcome): the pairs
classified IN for the new site — persistent-OUT vertices with positive
in_circle determinant, with their determinants. -/
def in_set (vd : VoronoiDiagram) (ora : Oracles) (p : Pt) :
    List (Nat × ℚ) :=
  vd.g.verts.filterMap (fun vs =>
    if vs.2 = VoronoiVertexStatus.OUT ∧ 0 < ora.inC vs.1 p then
      some (vs.1, ora.inC vs.1 p)
    else none)

/-- Modelled from the spec: the classification phase records the transient
IN labels, the to-be-deleted list v0, the INCIDENT face marks, and the
queue contents. -/
def mark_phase (vd : VoronoiDiagram) (ora : Oracles) (p : Pt) :
    VoronoiDiagram :=
  { vd with
    modified_vertices := (in_set vd ora p).map
      (fun vq => (vq.1, VoronoiVertexStatus.IN)),
    v0 := (in_set vd ora p).map Prod.fst,
    incident_faces := (ora.incident p).filter (fun f => f ∈ vd.faces),
    vertexQueue := in_set vd ora p }

/-- Modelled from the spec (4.5.3-4.5.4, reduced): surgery — add the site
vertex (POINTSITE for a point, ENDPOINT for a segment endpoint), one NEW
vertex per deleted vertex, a twinned edge pair from each NEW vertex to the
site vertex, remove the IN set with its incident edges, and append the new
face.  The NEW labels are queued for reset. -/
def surgery_verts (vd : VoronoiDiagram) (svstat : VoronoiVertexStatus) :
    List (Nat × VoronoiVertexStatus) :=
  (vd.next_vid, svstat) ::
    ((List.range vd.v0.length).map
      (fun i => (vd.next_vid + 1 + i, VoronoiVertexStatus.OUT)) ++
      vd.g.verts)

/-- the graph after surgery: new vertices added, spokes added, the IN set
and its incident edges removed. -/
def surgery_graph (vd : VoronoiDiagram) (svstat : VoronoiVertexStatus) :
    HEGraph :=
  remove_vertex_set
    (add_spokes ⟨surgery_verts vd svstat, vd.g.edges⟩ vd.next_vid
      vd.next_eid (vd.next_vid + 1) vd.v0.length)
    vd.v0

def surgery (vd : VoronoiDiagram) (svstat : VoronoiVertexStatus) :
    VoronoiDiagram :=
  { vd with
    g := surgery_graph vd svstat,
    faces := vd.next_fid :: vd.faces,
    next_vid := vd.next_vid + 1 + vd.v0.length,
    next_eid := vd.next_eid + 2 * vd.v0.length,
    next_fid := vd.next_fid + 1,
    modified_vertices := vd.modified_vertices ++
      (List.range vd.v0.length).map
        (fun i => (vd.next_vid + 1 + i, VoronoiVertexStatus.NEW)) }

/-- Modelled from the spec (sections 5-7): insert_point_site — validate
bounds and duplicates, classify, position (a positioner failure is surfaced
as Degeneracy and rolled back), operate, clean up, and return the dense
handle gen_count. -/
def insert_point_site (vd : VoronoiDiagram) (ora : Oracles) (p : Pt) :
    VoronoiDiagram × Except InsertError Int :=
  let far := vd.far_radius.getD 0
  if p.1 * p.1 + p.2 * p.2 < far * far then
    if p ∈ vd.sites then (vd, .error .Duplicate)
    else
      match ora.vpos p with
      | none => (reset_status (mark_phase vd ora p), .error .Degeneracy)
      | some _ =>
        (reset_status
          { surgery (mark_phase vd ora p) .POINTSITE with
            sites := p :: vd.sites, gen_count := vd.gen_count + 1 },
          .ok vd.gen_count)
  else (vd, .error .OutOfBounds)

/-- Modelled from the spec (sections 5-7): insert_line_site — validate the
two point handles and the crossing test, then classify, position, operate
and clean up like a point insertion; the endpoints contribute ENDPOINT
vertices and no new point handle is consumed.  The site is keyed by its
handle pair for the oracles. -/
def insert_line_site (vd : VoronoiDiagram) (ora : Oracles)
    (idx1 idx2 : Int) : VoronoiDiagram × Except InsertError Unit :=
  if 3 ≤ idx1 ∧ idx1 < vd.gen_count ∧ 3 ≤ idx2 ∧ idx2 < vd.gen_count ∧
      idx1 ≠ idx2 then
    if ora.crosses idx1 idx2 then (vd, .error .Crossing)
    else
      match ora.vpos (idx1, idx2) with
      | none =>
        (reset_status (mark_phase vd ora (idx1, idx2)), .error .Degeneracy)
      | some _ =>
        (reset_status (surgery (mark_phase vd ora (idx1, idx2)) .ENDPOINT),
          .ok ())
  else (vd, .error .UnknownHandle)

/-- diagram states reachable from a two-argument construction by point and
line insertions. -/
inductive ReachableVD : VoronoiDiagram → Prop where
  | init (far : ℤ) (n : Nat) : ReachableVD (init_diagram far n)
  | point (vd : VoronoiDiagram) (ora : Oracles) (p : Pt) :
      ReachableVD vd → ReachableVD (insert_point_site vd ora p).1
  | line (vd : VoronoiDiagram) (ora : Oracles) (i j : Int) :
      ReachableVD vd → ReachableVD (insert_line_site vd ora i j).1

/-! ### Well-formedness invariant carried through all insertions -/

/-- persistent vertex statuses allowed outside an insertion (invariant I6). -/
def allowed_status (s : VoronoiVertexStatus) : Prop :=
  s = VoronoiVertexStatus.OUT ∨ s = VoronoiVertexStatus.POINTSITE ∨
  s = VoronoiVertexStatus.ENDPOINT ∨ s = VoronoiVertexStatus.OUTER

instance (s : VoronoiVertexStatus) : Decidable (allowed_status s) := by
  unfold allowed_status
  infer_instance

/-- the state invariant: distinct vertex ids, the three reserved OUTER
vertices present, id bounds for freshness, allowed persistent statuses,
half-edge twin symmetry I1, and empty scratch. -/
def WF (vd : VoronoiDiagram) : Prop :=
  (vd.g.verts.map Prod.fst).Nodup ∧
  vd.out_verts = [0, 1, 2] ∧
  (∀ v ∈ vd.out_verts, (v, VoronoiVertexStatus.OUTER) ∈ vd.g.verts) ∧
  (∀ vs ∈ vd.g.verts, vs.1 < vd.next_vid) ∧
  (∀ vs ∈ vd.g.verts, allowed_status vs.2) ∧
  (∀ e ∈ vd.g.edges, e.eid < vd.next_eid) ∧
  (∀ e ∈ vd.g.edges, e.twin < vd.next_eid) ∧
  I1 vd.g ∧
  scratch_clear vd

theorem WF_init (far : ℤ) (n : Nat) : WF (init_diagram far n) := by
  refine ⟨?_, rfl, ?_, ?_, ?_, ?_, ?_, ?_, rfl, rfl, rfl, rfl⟩
  · show (init_verts.map Prod.fst).Nodup
    decide
  · show ∀ v ∈ [0, 1, 2], (v, VoronoiVertexStatus.OUTER) ∈ init_verts
    decide
  · show ∀ vs ∈ init_verts, vs.1 < 3
    decide
  · show ∀ vs ∈ init_verts, allowed_status vs.2
    decide
  · show ∀ e ∈ init_edges, e.eid < 6
    decide
  · show ∀ e ∈ init_edges, e.twin < 6
    decide
  · show I1 ⟨init_verts, init_edges⟩
    unfold I1
    decide

/-- rolling back after a failed classification restores the pre-call state
exactly, because the mark phase touches only the scratch buffers. -/
theorem reset_mark_eq (vd : VoronoiDiagram) (ora : Oracles) (p : Pt)
    (h : scratch_clear vd) : reset_status (mark_phase vd ora p) = vd := by
  obtain ⟨h1, h2, h3, h4⟩ := h
  cases vd
  simp only [reset_status, mark_phase] at *
  simp_all

/-- members of the IN set are persistent-OUT vertices of the graph. -/
theorem in_set_mem_status (vd : VoronoiDiagram) (ora : Oracles) (p : Pt)
    (u : Nat) (hu : u ∈ (in_set vd ora p).map Prod.fst) :
    (u, VoronoiVertexStatus.OUT) ∈ vd.g.verts := by
  obtain ⟨uq, hmem, hfst⟩ := List.mem_map.mp hu
  rw [in_set, List.mem_filterMap] at hmem
  obtain ⟨⟨v1, st⟩, hvs, hf⟩ := hmem
  simp only at hf
  by_cases hcond : st = VoronoiVertexStatus.OUT ∧ 0 < ora.inC v1 p
  · rw [if_pos hcond] at hf
    injection hf with hf2
    have h1 : v1 = uq.1 := congrArg Prod.fst hf2
    rw [← hfst, ← h1, ← hcond.1]
    exact hvs
  · rw [if_neg hcond] at hf
    exact absurd hf (by simp)

/-- with distinct vertex ids, two entries sharing an id are equal. -/
theorem verts_key_unique (l : List (Nat × VoronoiVertexStatus))
    (hnd : (l.map Prod.fst).Nodup) {v : Nat} {a b : VoronoiVertexStatus}
    (ha : (v, a) ∈ l) (hb : (v, b) ∈ l) : a = b := by
  have := List.inj_on_of_nodup_map hnd ha hb rfl
  injection this

/-- vertex ids appearing in the surgery vertex list are bounded. -/
theorem surgery_verts_bound (vd : VoronoiDiagram)
    (st : VoronoiVertexStatus) (hvb : ∀ vs ∈ vd.g.verts, vs.1 < vd.next_vid) :
    ∀ vs ∈ surgery_verts vd st, vs.1 < vd.next_vid + 1 + vd.v0.length := by
  intro vs hvs
  rw [surgery_verts] at hvs
  rcases List.mem_cons.mp hvs with rfl | hvs2
  · show vd.next_vid < _
    omega
  · rcases List.mem_append.mp hvs2 with hvs3 | hvs3
    · obtain ⟨i, hi, rfl⟩ := List.mem_map.mp hvs3
      rw [List.mem_range] at hi
      show vd.next_vid + 1 + i < _
      omega
    · have := hvb vs hvs3
      omega

/-- statuses in the surgery vertex list stay in the allowed set. -/
theorem surgery_verts_status (vd : VoronoiDiagram)
    (st : VoronoiVertexStatus) (hst : allowed_status st)
    (hvst : ∀ vs ∈ vd.g.verts, allowed_status vs.2) :
    ∀ vs ∈ surgery_verts vd st, allowed_status vs.2 := by
  intro vs hvs
  rw [surgery_verts] at hvs
  rcases List.mem_cons.mp hvs with rfl | hvs2
  · exact hst
  · rcases List.mem_append.mp hvs2 with hvs3 | hvs3
    · obtain ⟨i, _, rfl⟩ := List.mem_map.mp hvs3
      exact Or.inl rfl
    · exact hvst vs hvs3

/-- the surgery vertex list keeps ids distinct. -/
theorem surgery_verts_nodup (vd : VoronoiDiagram)
    (st : VoronoiVertexStatus)
    (hnd : (vd.g.verts.map Prod.fst).Nodup)
    (hvb : ∀ vs ∈ vd.g.verts, vs.1 < vd.next_vid) :
    ((surgery_verts vd st).map Prod.fst).Nodup := by
  have hmapeq : (surgery_verts vd st).map Prod.fst =
      vd.next_vid ::
        ((List.range vd.v0.length).map (fun i => vd.next_vid + 1 + i) ++
          vd.g.verts.map Prod.fst) := by
    rw [surgery_verts, List.map_cons, List.map_append, List.map_map]
    rfl
  rw [hmapeq, List.nodup_cons]
  constructor
  · intro hmem
    rcases List.mem_append.mp hmem with h | h
    · obtain ⟨i, hi, heq⟩ := List.mem_map.mp h
      omega
    · obtain ⟨vs, hvs, heq⟩ := List.mem_map.mp h
      have := hvb vs hvs
      omega
  · rw [List.nodup_append]
    refine ⟨List.Nodup.map (fun a b hab => by omega) (List.nodup_range _),
      hnd, ?_⟩
    intro x hx hy
    obtain ⟨i, hi, heq⟩ := List.mem_map.mp hx
    obtain ⟨vs, hvs, heq2⟩ := List.mem_map.mp hy
    have := hvb vs hvs
    omega

/-- full specification of surgery on the graph: ids stay distinct, OUTER
vertices survive, id bounds grow as allotted, statuses stay allowed, and
twin symmetry holds. -/
theorem surgery_graph_spec (w : VoronoiDiagram) (st : VoronoiVertexStatus)
    (hst : allowed_status st)
    (hnd : (w.g.verts.map Prod.fst).Nodup)
    (hvb : ∀ vs ∈ w.g.verts, vs.1 < w.next_vid)
    (hvst : ∀ vs ∈ w.g.verts, allowed_status vs.2)
    (heb : ∀ e ∈ w.g.edges, e.eid < w.next_eid)
    (hetb : ∀ e ∈ w.g.edges, e.twin < w.next_eid)
    (hI1 : I1 w.g)
    (hv0 : ∀ u ∈ w.v0, (u, VoronoiVertexStatus.OUT) ∈ w.g.verts) :
    ((surgery_graph w st).verts.map Prod.fst).Nodup ∧
    (∀ v, (v, VoronoiVertexStatus.OUTER) ∈ w.g.verts →
      (v, VoronoiVertexStatus.OUTER) ∈ (surgery_graph w st).verts) ∧
    (∀ vs ∈ (surgery_graph w st).verts,
      vs.1 < w.next_vid + 1 + w.v0.length) ∧
    (∀ vs ∈ (surgery_graph w st).verts, allowed_status vs.2) ∧
    (∀ e ∈ (surgery_graph w st).edges,
      e.eid < w.next_eid + 2 * w.v0.length) ∧
    (∀ e ∈ (surgery_graph w st).edges,
      e.twin < w.next_eid + 2 * w.v0.length) ∧
    I1 (surgery_graph w st) := by
  obtain ⟨hI2, hveq, heb2, hetb2⟩ :=
    add_spokes_spec w.next_vid w.v0.length w.next_eid (w.next_vid + 1)
      ⟨surgery_verts w st, w.g.edges⟩ hI1 heb hetb (by omega)
  have hveq2 : (add_spokes ⟨surgery_verts w st, w.g.edges⟩ w.next_vid
      w.next_eid (w.next_vid + 1) w.v0.length).verts = surgery_verts w st :=
    hveq
  refine ⟨?_, ?_, ?_, ?_, ?_, ?_, ?_⟩
  · show (List.map Prod.fst (List.filter _ _)).Nodup
    apply List.Nodup.sublist
      (List.Sublist.map Prod.fst (List.filter_sublist _))
    rw [hveq]
    exact surgery_verts_nodup w st hnd hvb
  · intro v hvmem
    show _ ∈ List.filter _ _
    rw [List.mem_filter]
    constructor
    · rw [hveq]
      show _ ∈ surgery_verts w st
      rw [surgery_verts]
      exact List.mem_cons_of_mem _ (List.mem_append_right _ hvmem)
    · have hnm : v ∉ w.v0 := by
        intro hmem
        have hout := hv0 v hmem
        have := verts_key_unique w.g.verts hnd hout hvmem
        exact absurd this (by decide)
      simpa using hnm
  · intro vs hvs
    exact surgery_verts_bound w st hvb vs
      (hveq2 ▸ List.mem_of_mem_filter hvs)
  · intro vs hvs
    exact surgery_verts_status w st hst hvst vs
      (hveq2 ▸ List.mem_of_mem_filter hvs)
  · intro e he
    exact heb2 e (List.mem_of_mem_filter he)
  · intro e he
    exact hetb2 e (List.mem_of_mem_filter he)
  · exact remove_vertex_set_I1 _ _ hI2

/-- a successful lookup exhibits membership. -/
theorem lookup_mem (l : List (Nat × VoronoiVertexStatus)) (v : Nat)
    (st : VoronoiVertexStatus) (h : l.lookup v = some st) : (v, st) ∈ l := by
  induction l with
  | nil => simp [List.lookup] at h
  | cons a l ih =>
    rcases a with ⟨k, b⟩
    rw [List.lookup] at h
    by_cases hv : v == k
    · rw [hv] at h
      injection h with h2
      have hk : v = k := by simpa using hv
      subst hk
      subst h2
      exact List.mem_cons_self _ _
    · rw [Bool.not_eq_true] at hv
      rw [hv] at h
      exact List.mem_cons_of_mem _ (ih h)

/-- a successful insertion keeps the state invariant. -/
theorem insert_success_WF (vd : VoronoiDiagram) (ora : Oracles) (p : Pt)
    (st : VoronoiVertexStatus) (hst : allowed_status st) (hW : WF vd) :
    WF (reset_status (surgery (mark_phase vd ora p) st)) := by
  obtain ⟨hnd, hov, houter, hvb, hvst, heb, hetb, hI1, hscr⟩ := hW
  obtain ⟨s1, s2, s3, s4, s5, s6, s7⟩ :=
    surgery_graph_spec (mark_phase vd ora p) st hst hnd hvb hvst heb hetb hI1
      (fun u hu => in_set_mem_status vd ora p u hu)
  exact ⟨s1, hov, fun v hv => s2 v (houter v hv), s3, s4, s5, s6, s7,
    rfl, rfl, rfl, rfl⟩

theorem insert_point_site_WF (vd : VoronoiDiagram) (ora : Oracles) (p : Pt)
    (hW : WF vd) : WF (insert_point_site vd ora p).1 := by
  rw [insert_point_site]
  split
  · split
    · exact hW
    · rcases hv : ora.vpos p with _ | pos
      · simp only [hv]
        rw [reset_mark_eq vd ora p hW.2.2.2.2.2.2.2.2]
        exact hW
      · simp only [hv]
        exact insert_success_WF vd ora p .POINTSITE
          (Or.inr (Or.inl rfl)) hW
  · exact hW

theorem insert_line_site_WF (vd : VoronoiDiagram) (ora : Oracles)
    (i j : Int) (hW : WF vd) : WF (insert_line_site vd ora i j).1 := by
  rw [insert_line_site]
  split
  · split
    · exact hW
    · rcases hv : ora.vpos (i, j) with _ | pos
      · simp only [hv]
        rw [reset_mark_eq vd ora _ hW.2.2.2.2.2.2.2.2]
        exact hW
      · simp only [hv]
        exact insert_success_WF vd ora _ .ENDPOINT
          (Or.inr (Or.inr (Or.inl rfl))) hW
  · exact hW

/-- every reachable diagram state satisfies the invariant. -/
theorem reachable_WF (vd : VoronoiDiagram) (h : ReachableVD vd) : WF vd := by
  induction h with
  | init far n => exact WF_init far n
  | point vd ora p _ ih => exact insert_point_site_WF vd ora p ih
  | line vd ora i j _ ih => exact insert_line_site_WF vd ora i j ih

/-! ### Claim C3 -/

/-- C3: in every state reachable by completed insertions — successful or
failed — every vertex status is one of OUT, POINTSITE, ENDPOINT, OUTER (no
UNDECIDED, IN or NEW remains), every face is NONINCIDENT, and the
per-insertion scratch state (vertexQueue, modified_vertices, incident_faces,
v0) is empty. -/
theorem C3_status_reset (vd : VoronoiDiagram) (hr : ReachableVD vd) :
    (∀ v, allowed_status (vertex_status vd v)) ∧
    (∀ f, face_status vd f = VoronoiFaceStatus.NONINCIDENT) ∧
    vd.vertexQueue = [] ∧ vd.modified_vertices = [] ∧
    vd.incident_faces = [] ∧ vd.v0 = [] := by
  obtain ⟨hnd, hov, houter, hvb, hvst, heb, hetb, hI1, h1, h2, h3, h4⟩ :=
    reachable_WF vd hr
  refine ⟨?_, ?_, h4, h2, h1, h3⟩
  · intro v
    rw [vertex_status, h2]
    show allowed_status ((vd.g.verts.lookup v).getD VoronoiVertexStatus.OUT)
    rcases hl : vd.g.verts.lookup v with _ | st
    · exact Or.inl rfl
    · exact hvst (v, st) (lookup_mem _ _ _ hl)
  · intro f
    rw [face_status, h1]
    simp

/-- C3 witness: the postcondition holds concretely after a successful point
insertion on a freshly constructed diagram. -/
theorem C3_status_reset_witness :
    (∀ v, allowed_status (vertex_status
      (insert_point_site (init_diagram 10 4)
        ⟨fun _ _ => 1, fun _ => some (0, 0, 0), fun _ => [],
          fun _ _ => false⟩ (0, 1)).1 v)) ∧
    (∀ f, face_status
      (insert_point_site (init_diagram 10 4)
        ⟨fun _ _ => 1, fun _ => some (0, 0, 0), fun _ => [],
          fun _ _ => false⟩ (0, 1)).1 f = VoronoiFaceStatus.NONINCIDENT) ∧
    (insert_point_site (init_diagram 10 4)
      ⟨fun _ _ => 1, fun _ => some (0, 0, 0), fun _ => [],
        fun _ _ => false⟩ (0, 1)).1.vertexQueue = [] ∧
    (insert_point_site (init_diagram 10 4)
      ⟨fun _ _ => 1, fun _ => some (0, 0, 0), fun _ => [],
        fun _ _ => false⟩ (0, 1)).1.modified_vertices = [] ∧
    (insert_point_site (init_diagram 10 4)
      ⟨fun _ _ => 1, fun _ => some (0, 0, 0), fun _ => [],
        fun _ _ => false⟩ (0, 1)).1.incident_faces = [] ∧
    (insert_point_site (init_diagram 10 4)
      ⟨fun _ _ => 1, fun _ => some (0, 0, 0), fun _ => [],
        fun _ _ => false⟩ (0, 1)).1.v0 = [] :=
  C3_status_reset _ (ReachableVD.point _ _ _ (ReachableVD.init 10 4))

/-! ### Claim C4 -/

/-- C4: an insertion (point or line) that fails with Degeneracy leaves the
diagram in exactly its pre-call state — transient labels are cleared and no
vertex, edge or face is added, removed, or mutated — provided the pre-call
state carries no stale scratch (which holds outside any insertion). -/
theorem C4_degeneracy_rollback :
    (∀ (vd : VoronoiDiagram) (ora : Oracles) (p : Pt),
      scratch_clear vd →
      (insert_point_site vd ora p).2 =
        Except.error InsertError.Degeneracy →
      (insert_point_site vd ora p).1 = vd) ∧
    (∀ (vd : VoronoiDiagram) (ora : Oracles) (i j : Int),
      scratch_clear vd →
      (insert_line_site vd ora i j).2 =
        Except.error InsertError.Degeneracy →
      (insert_line_site vd ora i j).1 = vd) := by
  constructor
  · intro vd ora p hclr hres
    rw [insert_point_site] at hres ⊢
    by_cases hb : p.1 * p.1 + p.2 * p.2 < vd.far_radius.getD 0 * vd.far_radius.getD 0
    · rw [if_pos hb] at hres ⊢
      by_cases hd : p ∈ vd.sites
      · rw [if_pos hd] at hres
        simp at hres
      · rw [if_neg hd] at hres ⊢
        rcases hv : ora.vpos p with _ | pos
        · simp only [hv]
          exact reset_mark_eq vd ora p hclr
        · simp only [hv] at hres
          simp at hres
    · rw [if_neg hb] at hres
      simp at hres
  · intro vd ora i j hclr hres
    rw [insert_line_site] at hres ⊢
    by_cases hb : 3 ≤ i ∧ i < vd.gen_count ∧ 3 ≤ j ∧ j < vd.gen_count ∧
        i ≠ j
    · rw [if_pos hb] at hres ⊢
      by_cases hc : ora.crosses i j
      · rw [if_pos hc] at hres
        simp at hres
      · rw [if_neg hc] at hres ⊢
        rcases hv : ora.vpos (i, j) with _ | pos
        · simp only [hv]
          exact reset_mark_eq vd ora _ hclr
        · simp only [hv] at hres
          simp at hres
    · rw [if_neg hb] at hres
      simp at hres

instance (vd : VoronoiDiagram) : Decidable (scratch_clear vd) := by
  unfold scratch_clear
  infer_instance

deriving instance DecidableEq for Except

/-- positioner-failing oracle used by witnesses: classification succeeds
but every positioning attempt reports NoPosition. -/
def oraFail : Oracles :=
  ⟨fun _ _ => 1, fun _ => none, fun _ => [], fun _ _ => false⟩

/-- well-behaved oracle used by witnesses. -/
def oraOK : Oracles :=
  ⟨fun _ _ => 1, fun _ => some (0, 0, 0), fun _ => [], fun _ _ => false⟩

/-- diagram with two point sites inserted, used by witnesses. -/
def vd2W : VoronoiDiagram :=
  (insert_point_site
    ((insert_point_site (init_diagram 10 4) oraOK (0, 1)).1) oraOK
    (1, 0)).1

/-- C4 witness: a Degeneracy-failing point insertion on a fresh diagram and
a Degeneracy-failing line insertion on a two-site diagram both roll back. -/
theorem C4_degeneracy_rollback_witness :
    (scratch_clear (init_diagram 10 4) ∧
      (insert_point_site (init_diagram 10 4) oraFail (0, 0)).2 =
        Except.error InsertError.Degeneracy ∧
      (insert_point_site (init_diagram 10 4) oraFail (0, 0)).1 =
        init_diagram 10 4) ∧
    (scratch_clear vd2W ∧
      (insert_line_site vd2W oraFail 3 4).2 =
        Except.error InsertError.Degeneracy ∧
      (insert_line_site vd2W oraFail 3 4).1 = vd2W) :=
  ⟨⟨by decide, by decide,
    C4_degeneracy_rollback.1 _ oraFail _ (by decide) (by decide)⟩,
   ⟨by decide, by decide,
    C4_degeneracy_rollback.2 vd2W oraFail 3 4 (by decide) (by decide)⟩⟩

/-! ### Claim C5 -/

/-- a point insertion never changes far_radius; the sites list either stays
or gains exactly the inserted point, which then passed the bounds check. -/
theorem insert_point_sites (vd : VoronoiDiagram) (ora : Oracles) (p : Pt) :
    (insert_point_site vd ora p).1.far_radius = vd.far_radius ∧
    ((insert_point_site vd ora p).1.sites = vd.sites ∨
      ((insert_point_site vd ora p).1.sites = p :: vd.sites ∧
        p.1 * p.1 + p.2 * p.2 <
          vd.far_radius.getD 0 * vd.far_radius.getD 0)) := by
  rw [insert_point_site]
  by_cases hb : p.1 * p.1 + p.2 * p.2 <
      vd.far_radius.getD 0 * vd.far_radius.getD 0
  · rw [if_pos hb]
    by_cases hd : p ∈ vd.sites
    · rw [if_pos hd]
      exact ⟨rfl, Or.inl rfl⟩
    · rw [if_neg hd]
      rcases hv : ora.vpos p with _ | pos
      · simp only [hv]
        exact ⟨rfl, Or.inl rfl⟩
      · simp only [hv]
        exact ⟨rfl, Or.inr ⟨rfl, hb⟩⟩
  · rw [if_neg hb]
    exact ⟨rfl, Or.inl rfl⟩

/-- a line insertion never changes far_radius or the point-site list. -/
theorem insert_line_sites (vd : VoronoiDiagram) (ora : Oracles)
    (i j : Int) :
    (insert_line_site vd ora i j).1.far_radius = vd.far_radius ∧
    (insert_line_site vd ora i j).1.sites = vd.sites := by
  rw [insert_line_site]
  by_cases hb : 3 ≤ i ∧ i < vd.gen_count ∧ 3 ≤ j ∧ j < vd.gen_count ∧
      i ≠ j
  · rw [if_pos hb]
    by_cases hc : ora.crosses i j
    · rw [if_pos hc]
      exact ⟨rfl, rfl⟩
    · rw [if_neg hc]
      rcases hv : ora.vpos (i, j) with _ | pos
      · simp only [hv]
        exact ⟨rfl, rfl⟩
      · simp only [hv]
        exact ⟨rfl, rfl⟩
  · rw [if_neg hb]
    exact ⟨rfl, rfl⟩

/-- every point recorded as a site of a reachable state passed the bounds
check against the (never-changing) far radius when it was inserted. -/
theorem reachable_sites_bound (vd : VoronoiDiagram) (hr : ReachableVD vd) :
    ∀ p ∈ vd.sites,
      p.1 * p.1 + p.2 * p.2 <
        vd.far_radius.getD 0 * vd.far_radius.getD 0 := by
  induction hr with
  | init far n =>
    intro p hp
    exact absurd hp (List.not_mem_nil p)
  | point vd ora q _ ih =>
    obtain ⟨hfar, hsites⟩ := insert_point_sites vd ora q
    intro p hp
    rw [hfar]
    rcases hsites with heq | ⟨heq, hbq⟩
    · exact ih p (heq ▸ hp)
    · rw [heq] at hp
      rcases List.mem_cons.mp hp with rfl | hp2
      · exact hbq
      · exact ih p hp2
  | line vd ora i j _ ih =>
    obtain ⟨hfar, hsites⟩ := insert_line_sites vd ora i j
    intro p hp
    rw [hfar]
    exact ih p (hsites ▸ hp)

/-- C5: in any reachable diagram state, inserting a point p that is already
recorded as a point site — no matter how many other insertions happened in
between — fails with Duplicate, and the failed call returns the state
unchanged. -/
theorem C5_duplicate_reinsert (vd : VoronoiDiagram) (hr : ReachableVD vd)
    (ora : Oracles) (p : Pt) (hp : p ∈ vd.sites) :
    insert_point_site vd ora p = (vd, Except.error InsertError.Duplicate)
    := by
  rw [insert_point_site, if_pos (reachable_sites_bound vd hr p hp),
    if_pos hp]

/-- diagram with one point site inserted, used by witnesses. -/
def vd1W : VoronoiDiagram :=
  (insert_point_site (init_diagram 10 4) oraOK (0, 1)).1

/-- diagram with two point sites inserted, (0,1) then (1,0), used by the
C5 witness: the re-inserted point is the first one, with an intervening
insertion in between. -/
def vd2X : VoronoiDiagram :=
  (insert_point_site vd1W oraOK (1, 0)).1

/-- C5 witness: (0,1) was inserted first, (1,0) second; re-inserting (0,1)
on the later state fails with Duplicate and changes nothing. -/
theorem C5_duplicate_reinsert_witness :
    (0, 1) ∈ vd2X.sites ∧
    insert_point_site vd2X oraOK (0, 1) =
      (vd2X, Except.error InsertError.Duplicate) :=
  ⟨by decide,
    C5_duplicate_reinsert vd2X
      (ReachableVD.point vd1W oraOK (1, 0)
        (ReachableVD.point (init_diagram 10 4) oraOK (0, 1)
          (ReachableVD.init 10 4)))
      oraOK (0, 1) (by decide)⟩

/-! ### Claim C6 -/

/-- run insert_point_site over a list of points, collecting the results. -/
def insert_all (ora : Oracles) : VoronoiDiagram → List Pt →
    VoronoiDiagram × List (Except InsertError Int)
  | vd, [] => (vd, [])
  | vd, p :: ps =>
    ((insert_all ora (insert_point_site vd ora p).1 ps).1,
      (insert_point_site vd ora p).2 ::
        (insert_all ora (insert_point_site vd ora p).1 ps).2)

/-- handles returned by the successful calls, in call order. -/
def ok_handles (rs : List (Except InsertError Int)) : List Int :=
  rs.filterMap (fun r => match r with
    | .ok h => some h
    | .error _ => none)

/-- the dense run of handles a, a+1, ..., a+n-1. -/
def seq_from (a : Int) : Nat → List Int
  | 0 => []
  | n + 1 => a :: seq_from (a + 1) n

theorem seq_from_length (a : Int) : ∀ n, (seq_from a n).length = n := by
  intro n
  induction n generalizing a with
  | zero => rfl
  | succ n ih => simpa [seq_from] using ih (a + 1)

theorem seq_from_get :
    ∀ (n : Nat) (a : Int) (i : Nat) (hi : i < (seq_from a n).length),
    (seq_from a n).get ⟨i, hi⟩ = a + i := by
  intro n
  induction n with
  | zero =>
    intro a i hi
    simp [seq_from] at hi
  | succ n ih =>
    intro a i hi
    cases i with
    | zero => simp [seq_from]
    | succ i =>
      have hi2 : i < (seq_from (a + 1) n).length := by
        simpa [seq_from] using hi
      have := ih (a + 1) i hi2
      simp only [seq_from, List.get_cons_succ]
      rw [this]
      push_cast
      ring

/-- every call either returns the current gen_count and bumps it, or fails
and leaves gen_count unchanged. -/
theorem insert_point_gen (vd : VoronoiDiagram) (ora : Oracles) (p : Pt) :
    ((insert_point_site vd ora p).2 = Except.ok vd.gen_count ∧
      (insert_point_site vd ora p).1.gen_count = vd.gen_count + 1) ∨
    ((∃ err, (insert_point_site vd ora p).2 = Except.error err) ∧
      (insert_point_site vd ora p).1.gen_count = vd.gen_count) := by
  rw [insert_point_site]
  by_cases hb : p.1 * p.1 + p.2 * p.2 <
      vd.far_radius.getD 0 * vd.far_radius.getD 0
  · rw [if_pos hb]
    by_cases hd : p ∈ vd.sites
    · rw [if_pos hd]
      exact Or.inr ⟨⟨_, rfl⟩, rfl⟩
    · rw [if_neg hd]
      rcases hv : ora.vpos p with _ | pos
      · exact Or.inr ⟨⟨_, rfl⟩, rfl⟩
      · exact Or.inl ⟨rfl, rfl⟩
  · rw [if_neg hb]
    exact Or.inr ⟨⟨_, rfl⟩, rfl⟩

/-- the successful handles of a run form the dense sequence starting at the
initial gen_count. -/
theorem insert_all_handles (ora : Oracles) :
    ∀ (ps : List Pt) (vd : VoronoiDiagram),
    ∃ m, ok_handles (insert_all ora vd ps).2 = seq_from vd.gen_count m := by
  intro ps
  induction ps with
  | nil =>
    intro vd
    exact ⟨0, rfl⟩
  | cons p ps ih =>
    intro vd
    obtain ⟨m, hm⟩ := ih (insert_point_site vd ora p).1
    rcases insert_point_gen vd ora p with ⟨hok, hgen⟩ | ⟨⟨err, herr⟩, hgen⟩
    · refine ⟨m + 1, ?_⟩
      rw [insert_all]
      show ok_handles ((insert_point_site vd ora p).2 ::
        (insert_all ora (insert_point_site vd ora p).1 ps).2) =
        vd.gen_count :: seq_from (vd.gen_count + 1) m
      rw [ok_handles, hok]
      show vd.gen_count :: ok_handles
        (insert_all ora (insert_point_site vd ora p).1 ps).2 =
        vd.gen_count :: seq_from (vd.gen_count + 1) m
      rw [hm, hgen]
    · refine ⟨m, ?_⟩
      rw [insert_all]
      show ok_handles ((insert_point_site vd ora p).2 ::
        (insert_all ora (insert_point_site vd ora p).1 ps).2) =
        seq_from vd.gen_count m
      rw [ok_handles, herr]
      show ok_handles
        (insert_all ora (insert_point_site vd ora p).1 ps).2 =
        seq_from vd.gen_count m
      rw [← hgen]
      exact hm

/-- C6: handles are dense nonnegative integers assigned in insertion order:
the fresh diagram reserves handles 0, 1, 2 for its three OUTER vertices and
starts gen_count at 3, and the successful calls of any following run of
insert_point_site return 3, 4, 5, ... in order — the k-th successful call
(counting from 1, i = k - 1 below) returns k + 2, each success taking the
smallest unused handle. -/
theorem C6_dense_handles (far : ℤ) (nb : Nat) (ora : Oracles)
    (ps : List Pt) :
    (init_diagram far nb).gen_count = 3 ∧
    (init_diagram far nb).out_verts = [0, 1, 2] ∧
    (∀ v ∈ (init_diagram far nb).out_verts,
      (v, VoronoiVertexStatus.OUTER) ∈ (init_diagram far nb).g.verts) ∧
    ∃ m, ok_handles (insert_all ora (init_diagram far nb) ps).2 =
        seq_from 3 m ∧
      ∀ (i : Nat) (hi : i < (seq_from (3:Int) m).length),
        (seq_from (3:Int) m).get ⟨i, hi⟩ = (i : Int) + 3 := by
  refine ⟨rfl, rfl, ?_, ?_⟩
  · show ∀ v ∈ [0, 1, 2], (v, VoronoiVertexStatus.OUTER) ∈ init_verts
    decide
  · obtain ⟨m, hm⟩ := insert_all_handles ora ps (init_diagram far nb)
    refine ⟨m, hm, ?_⟩
    intro i hi
    rw [seq_from_get m 3 i hi]
    ring

/-! ### Claim C8 -/

/-- C8: half-edge twin symmetry (invariant I1) holds in every diagram state
reachable from construction by any sequence of point and line insertions:
edge ids are distinct and every half-edge has a twin edge present in the
graph whose twin is itself and whose target differs from its own. -/
theorem C8_twin_symmetry (vd : VoronoiDiagram) (hr : ReachableVD vd) :
    I1 vd.g :=
  (reachable_WF vd hr).2.2.2.2.2.2.2.1

/-- C8 witness: twin symmetry holds concretely after a successful point
insertion on a fresh diagram. -/
theorem C8_twin_symmetry_witness : I1 vd1W.g :=
  C8_twin_symmetry vd1W
    (ReachableVD.point (init_diagram 10 4) oraOK (0, 1)
      (ReachableVD.init 10 4))

/-! ### Claim C9 -/

/-- Modelled from the spec: the positions of the three OUTER vertices
created by the initializer — an equilateral triangle inscribed in the disk
of radius far.  The field is a parameter (instantiated with ℝ below) and s
stands for the square root of 3. -/
def out_vertex_positions {R : Type} [Field R] (far s : R) : List (R × R) :=
  [(far, 0), (-(far / 2), far * s / 2), (-(far / 2), -(far * s / 2))]

/-- squared distance in the plane. -/
def sqdist {R : Type} [Field R] (a b : R × R) : R :=
  (a.1 - b.1) ^ 2 + (a.2 - b.2) ^ 2

/-- C9: the initializer creates exactly three OUTER point sites at the
vertices of an equilateral triangle inscribed in the disk of radius
far_radius (each position lies on the circle and the three pairwise squared
distances agree), plus the outer face; and in every reachable diagram state
the three reserved vertices 0, 1, 2 are still present with status OUTER —
they are never deleted. -/
theorem C9_outer_triangle :
    (∀ far : ℝ, 0 < far →
      (∀ q ∈ out_vertex_positions far (Real.sqrt 3),
        q.1 ^ 2 + q.2 ^ 2 = far ^ 2) ∧
      sqdist (far, 0) (-(far / 2), far * Real.sqrt 3 / 2) = 3 * far ^ 2 ∧
      sqdist (far, 0) (-(far / 2), -(far * Real.sqrt 3 / 2)) = 3 * far ^ 2 ∧
      sqdist (-(far / 2), far * Real.sqrt 3 / 2)
        (-(far / 2), -(far * Real.sqrt 3 / 2)) = 3 * far ^ 2) ∧
    (∀ far : ℤ, ∀ nb : Nat, (init_diagram far nb).out_verts = [0, 1, 2] ∧
      (init_diagram far nb).faces = [0]) ∧
    (∀ vd, ReachableVD vd → vd.out_verts = [0, 1, 2] ∧
      ∀ v ∈ vd.out_verts, (v, VoronoiVertexStatus.OUTER) ∈ vd.g.verts) := by
  have h3 : Real.sqrt 3 ^ 2 = 3 := Real.sq_sqrt (by norm_num)
  refine ⟨?_, fun _ _ => ⟨rfl, rfl⟩, ?_⟩
  · intro far hfar
    refine ⟨?_, ?_, ?_, ?_⟩
    · intro q hq
      rcases List.mem_cons.mp hq with rfl | hq2
      · show far ^ 2 + (0:ℝ) ^ 2 = far ^ 2
        ring
      · rcases List.mem_cons.mp hq2 with rfl | hq3
        · show (-(far / 2)) ^ 2 + (far * Real.sqrt 3 / 2) ^ 2 = far ^ 2
          linear_combination (far ^ 2 / 4) * h3
        · rcases List.mem_cons.mp hq3 with rfl | hq4
          · show (-(far / 2)) ^ 2 + (-(far * Real.sqrt 3 / 2)) ^ 2 = far ^ 2
            linear_combination (far ^ 2 / 4) * h3
          · exact absurd hq4 (List.not_mem_nil q)
    · show (far - -(far / 2)) ^ 2 + ((0:ℝ) - far * Real.sqrt 3 / 2) ^ 2 =
        3 * far ^ 2
      linear_combination (far ^ 2 / 4) * h3
    · show (far - -(far / 2)) ^ 2 + ((0:ℝ) - -(far * Real.sqrt 3 / 2)) ^ 2 =
        3 * far ^ 2
      linear_combination (far ^ 2 / 4) * h3
    · show (-(far / 2) - -(far / 2)) ^ 2 +
        (far * Real.sqrt 3 / 2 - -(far * Real.sqrt 3 / 2)) ^ 2 = 3 * far ^ 2
      linear_combination far ^ 2 * h3
  · intro vd hr
    obtain ⟨hnd, hov, houter, _⟩ := reachable_WF vd hr
    exact ⟨hov, houter⟩

/-- C9 witness: the triangle facts at far = 1 and the persistence facts in
the concrete one-insertion state. -/
theorem C9_outer_triangle_witness :
    ((∀ q ∈ out_vertex_positions (1:ℝ) (Real.sqrt 3),
        q.1 ^ 2 + q.2 ^ 2 = (1:ℝ) ^ 2) ∧
      sqdist ((1:ℝ), 0) (-(1 / 2), 1 * Real.sqrt 3 / 2) = 3 * (1:ℝ) ^ 2 ∧
      sqdist ((1:ℝ), 0) (-(1 / 2), -(1 * Real.sqrt 3 / 2)) = 3 * (1:ℝ) ^ 2 ∧
      sqdist (-((1:ℝ) / 2), 1 * Real.sqrt 3 / 2)
        (-((1:ℝ) / 2), -(1 * Real.sqrt 3 / 2)) = 3 * (1:ℝ) ^ 2) ∧
    (vd1W.out_verts = [0, 1, 2] ∧
      ∀ v ∈ vd1W.out_verts,
        (v, VoronoiVertexStatus.OUTER) ∈ vd1W.g.verts) :=
  ⟨C9_outer_triangle.1 1 one_pos,
    C9_outer_triangle.2.2 vd1W
      (ReachableVD.point (init_diagram 10 4) oraOK (0, 1)
        (ReachableVD.init 10 4))⟩

/-! ### Claim C10 -/

/-- C10: get_far_radius returns exactly the far argument after two-argument
construction; the zero-argument constructor VoronoiDiagram() leaves
far_radius uninitialized (modelled as none), so get_far_radius yields a
meaningful value only for diagrams built with the two-argument
constructor. -/
theorem C10_far_radius :
    (∀ (far : ℤ) (nb : Nat),
      get_far_radius (init_diagram far nb) = some far) ∧
    get_far_radius mkVoronoiDiagram = none :=
  ⟨fun _ _ => rfl, rfl⟩

end OVD
